import Mathlib

/-!
A shallow embedding of the ORC polar-performance service
(src/services/orc): unit conversion, polar parsing, wind-speed
interpolation, the optimal-angle solver, the reaching table, the LRU
cache and the request flow, together with theorems checking the
specification against the code.

Modelling conventions:
* JavaScript numbers are modelled as rationals; the composite
  `Math.cos(toRad deg)` is an explicit function parameter `cosDeg`
  (an executable stand-in for the transcendental cosine), so every
  theorem quantifying over `cosDeg` holds in particular for the real
  cosine of degrees.
* `Number(x.toFixed(2))` is modelled as rounding half-up to two
  decimals, `Number(x.toFixed(1))` to one decimal.
* JavaScript `Map` insertion order is modelled as an association list,
  oldest entry first; `Date.now()` is an explicit `now : Nat` argument
  and each synchronous request runs at a single instant (the core is
  single-threaded and non-suspending per the design).
-/

namespace Orc

/-- Rounding half-up to two decimals: the model of `Number(x.toFixed(2))`. -/
def round2 (x : ℚ) : ℚ := (round (x * 100) : ℤ) / 100

/-- Rounding half-up to one decimal: the model of `Number(x.toFixed(1))`. -/
def round1 (x : ℚ) : ℚ := (round (x * 10) : ℤ) / 10

/-- Element step of `toKnots` (polar.ts lines 17-22): a non-positive
seconds-per-nautical-mile value maps to 0, otherwise to `3600 / s`
rounded to two decimals. -/
def toKnotsElem (s : ℚ) : ℚ := if s ≤ 0 then 0 else round2 (3600 / s)

/-- `toKnots` (polar.ts lines 17-22): seconds per nautical mile to knots,
elementwise. -/
def toKnots (secPerNm : List ℚ) : List ℚ := secPerNm.map toKnotsElem

/-- `lerp` (polar.ts lines 31-33): linear interpolation between two values. -/
def lerp (a b t : ℚ) : ℚ := a + (b - a) * t

/-- Arithmetic mean of a series, the model of
`values.reduce((a, b) => a + b, 0) / values.length`. -/
def mean (l : List ℚ) : ℚ := l.sum / l.length

/-- `normalizeVmgToKnots` (polar.ts lines 74-90) in the case where the
data is the bare numeric array (`data.values`/`data.data` absent): an
empty series yields `undefined`; a series with mean above 100 is treated
as seconds per nautical mile and converted by `toKnots`; otherwise each
element is kept, rounded to two decimals. -/
def normalizeVmgToKnots (values : List ℚ) : Option (List ℚ) :=
  if values = [] then none
  else if 100 < mean values then some (toKnots values)
  else some (values.map round2)

/-- `STANDARD_WIND_SPEEDS` (polar.ts line 7). -/
def STANDARD_WIND_SPEEDS : List ℚ := [6, 8, 10, 12, 14, 16, 20]

/-- `REACH_ANGLES` (polar.ts line 10), as numeric angles. -/
def REACH_ANGLES : List ℚ := [52, 60, 75, 90, 110, 120, 135, 150]

/-- The `Polar` type (types.ts): wind-step axis, optional direct
upwind/downwind series, and the angle-to-speed-series table modelled as
an association list keyed by the numeric angle. -/
structure Polar where
  wind : List ℚ
  beatAngles : Option (List ℚ)
  beatVmg : Option (List ℚ)
  gybeAngles : Option (List ℚ)
  runVmg : Option (List ℚ)
  angleSpeeds : List (ℚ × List ℚ)
deriving DecidableEq, Repr

/-- Lookup in an association list by key, first match wins: the model of
`Record`/`Map` indexing. -/
def lookupKey {κ α : Type} [DecidableEq κ] : List (κ × α) → κ → Option α
  | [], _ => none
  | p :: ps, k => if p.1 = k then some p.2 else lookupKey ps k

/-- The `Allowances` section of the upstream payload, with the fields
`parsePolarFromOrcJson` reads: the wind axis, `BeatAngle`, `Beat`,
`GybeAngle`, `Run`, and the eight fixed reaching channels `R52`..`R150`. -/
structure Allowances where
  windSpeeds : Option (List ℚ)
  beatAngle : Option (List ℚ)
  beat : Option (List ℚ)
  gybeAngle : Option (List ℚ)
  run : Option (List ℚ)
  r52 : Option (List ℚ)
  r60 : Option (List ℚ)
  r75 : Option (List ℚ)
  r90 : Option (List ℚ)
  r110 : Option (List ℚ)
  r120 : Option (List ℚ)
  r135 : Option (List ℚ)
  r150 : Option (List ℚ)
deriving DecidableEq, Repr

/-- One element of the payload's `rms` array; `parsePolarFromOrcJson`
only reads its `Allowances` field. -/
structure RmsData where
  allowances : Option Allowances
deriving DecidableEq, Repr

/-- The upstream ORC payload shape that `parsePolarFromOrcJson` probes. -/
structure OrcJson where
  rms : List RmsData
deriving DecidableEq, Repr

/-- The reaching channels in the order the parser's `reachingAngles`
loop visits them (`'R52'`..`'R150'`), paired with their numeric angle. -/
def reachChannels (a : Allowances) : List (ℚ × Option (List ℚ)) :=
  [(52, a.r52), (60, a.r60), (75, a.r75), (90, a.r90),
   (110, a.r110), (120, a.r120), (135, a.r135), (150, a.r150)]

/-- One iteration of the parser's reaching-channel loop (polar.ts lines
128-134): a channel holding a non-empty array contributes its numeric
angle with the `toKnots`-converted series, any other channel is skipped. -/
def reachStep (c : ℚ × Option (List ℚ)) : Option (ℚ × List ℚ) :=
  match c.2 with
  | some times => if times ≠ [] then some (c.1, toKnots times) else none
  | none => none

/-- `parsePolarFromOrcJson` (polar.ts lines 97-146): takes `rms[0]`,
requires its `Allowances`, defaults an absent wind axis to
`STANDARD_WIND_SPEEDS`, converts `Beat`/`Run` times with `toKnots` when
present, and collects each non-empty reaching channel converted with
`toKnots` into the angle-speed table. Missing `rms` data or a missing
`Allowances` section raise the two parse errors. -/
def parsePolarFromOrcJson (orcJson : OrcJson) : Except String Polar :=
  match orcJson.rms.head? with
  | none => Except.error "Ingen RMS data fundet i ORC response"
  | some rmsData =>
    match rmsData.allowances with
    | none => Except.error "Ingen Allowances data fundet i ORC response"
    | some allowances =>
      let windSpeeds := match allowances.windSpeeds with
        | some l => l
        | none => STANDARD_WIND_SPEEDS
      let beatVmgKnots := allowances.beat.map toKnots
      let runVmgKnots := allowances.run.map toKnots
      let angleSpeeds := (reachChannels allowances).filterMap reachStep
      Except.ok
        { wind := windSpeeds
          beatAngles := allowances.beatAngle
          beatVmg := beatVmgKnots
          gybeAngles := allowances.gybeAngle
          runVmg := runVmgKnots
          angleSpeeds := angleSpeeds }

/-- The scan loop of `interpAtTws` (polar.ts lines 165-170): find the
first bracketing interval and interpolate linearly inside it. -/
def interpScan : List ℚ → List ℚ → ℚ → Option ℚ
  | v0 :: v1 :: vs, w0 :: w1 :: ws, tws =>
    if w0 ≤ tws ∧ tws ≤ w1 then
      some (lerp v0 v1 ((tws - w0) / (w1 - w0)))
    else interpScan (v1 :: vs) (w1 :: ws) tws
  | _, _, _ => none

/-- `interpAtTws` (polar.ts lines 155-173): `undefined` on a length
mismatch or empty axis, flat clamping at both boundaries, otherwise a
linear-interpolation scan over the intervals. -/
def interpAtTws (values windSpeeds : List ℚ) (tws : ℚ) : Option ℚ :=
  if values.length = windSpeeds.length then
    match values, windSpeeds with
    | v0 :: vs, w0 :: ws =>
      if tws ≤ w0 then some v0
      else if ws.getLastD w0 ≤ tws then some (vs.getLastD v0)
      else interpScan (v0 :: vs) (w0 :: ws) tws
    | _, _ => none
  else none

/-- `calculateUpwindVMG` (polar.ts lines 181-183), with the composite
`Math.cos(toRad twa)` supplied as `cosDeg`. -/
def calculateUpwindVMG (cosDeg : ℚ → ℚ) (twa bs : ℚ) : ℚ := bs * cosDeg twa

/-- `calculateDownwindVMG` (polar.ts lines 191-193). -/
def calculateDownwindVMG (cosDeg : ℚ → ℚ) (twa bs : ℚ) : ℚ :=
  bs * cosDeg (180 - twa)

/-- One entry of the reaching map (types.ts `ReachingEntry`). -/
structure ReachingEntry where
  twa_deg : ℚ
  target_bs_kt : ℚ
  vmg_kt : ℚ
deriving DecidableEq, Repr

/-- One iteration of the `computeReaching` loop (polar.ts lines
204-219): skip an angle without a matching-length speed series or
without a finite positive interpolated speed, otherwise emit the entry;
the VMG is always computed with `calculateUpwindVMG` (the source
comment: VMG beregnes altid som upwind VMG). -/
def reachingAt (cosDeg : ℚ → ℚ) (p : Polar) (tws : ℚ) (angle : ℚ) :
    Option (ℚ × ReachingEntry) :=
  match lookupKey p.angleSpeeds angle with
  | none => none
  | some speedList =>
    if speedList.length ≠ p.wind.length then none
    else
      match interpAtTws speedList p.wind tws with
      | none => none
      | some bs =>
        if bs ≤ 0 then none
        else
          some (angle,
            ⟨angle, round2 bs, round2 (calculateUpwindVMG cosDeg angle bs)⟩)

/-- `computeReaching` (polar.ts lines 201-222): the reaching map over
the fixed supported angle set. -/
def computeReaching (cosDeg : ℚ → ℚ) (p : Polar) (tws : ℚ) :
    List (ℚ × ReachingEntry) :=
  REACH_ANGLES.filterMap (reachingAt cosDeg p tws)

/-- The running best angle/VMG/boat-speed triple of the solvers
(`let best = { twa, vmg, bs }` in polar.ts lines 238 and 289). -/
structure BestTriple where
  twa : ℚ
  vmg : ℚ
  bs : ℚ
deriving DecidableEq, Repr

/-- One refinement update at an interior fraction `t` (polar.ts lines
259-267 and 310-318): interpolate angle and speed between the adjacent
candidates, recompute VMG, keep the better triple. -/
def refineStep (vmgOf : ℚ → ℚ → ℚ) (a na bs nbs : ℚ) (best : BestTriple)
    (t : ℚ) : BestTriple :=
  let interpAngle := lerp a na t
  let interpBs := lerp bs nbs t
  let interpVmg := vmgOf interpAngle interpBs
  if best.vmg < interpVmg then ⟨interpAngle, interpVmg, interpBs⟩ else best

/-- Interpolated boat speed for a candidate angle: the model of
`interpAtTws(polar.angleSpeeds![String(angle)], polar.wind, tws)`. -/
def candidateBs (p : Polar) (tws a : ℚ) : Option ℚ :=
  (lookupKey p.angleSpeeds a).bind fun sl => interpAtTws sl p.wind tws

/-- The refinement block of the solver loop (polar.ts lines 253-269 and
304-320): when a next candidate with a finite positive speed exists,
evaluate the three interior fractions and keep the best triple. -/
def refineAgainstNext (p : Polar) (tws : ℚ) (vmgOf : ℚ → ℚ → ℚ)
    (a bs : ℚ) (rest : List ℚ) (best1 : BestTriple) : BestTriple :=
  match rest.head? with
  | none => best1
  | some na =>
    match candidateBs p tws na with
    | none => best1
    | some nbs =>
      if nbs ≤ 0 then best1
      else [(1 : ℚ)/4, 1/2, 3/4].foldl (refineStep vmgOf a na bs nbs) best1

/-- The candidate loop shared verbatim by
`findOptimalUpwindFromAngles` and `findOptimalDownwindFromAngles`
(polar.ts lines 240-270 and 291-321), abstracted only in the VMG
projection `vmgOf`: skip candidates without a finite positive speed,
otherwise update the best triple and refine against the next candidate
at the three interior fractions. -/
def solveLoop (p : Polar) (tws : ℚ) (vmgOf : ℚ → ℚ → ℚ) :
    BestTriple → List ℚ → BestTriple
  | best, [] => best
  | best, a :: rest =>
    match candidateBs p tws a with
    | none => solveLoop p tws vmgOf best rest
    | some bs =>
      if bs ≤ 0 then solveLoop p tws vmgOf best rest
      else
        let vmg := vmgOf a bs
        let best1 : BestTriple := if best.vmg < vmg then ⟨a, vmg, bs⟩ else best
        solveLoop p tws vmgOf (refineAgainstNext p tws vmgOf a bs rest best1) rest

/-- Candidate angles of the angle-speed table restricted to a plausible
range and sorted ascending: the model of
`Object.keys(polar.angleSpeeds || \x7b\x7d).map(Number).filter(...).sort(...)`. -/
def candidateAngles (p : Polar) (lo hi : ℚ) : List ℚ :=
  ((p.angleSpeeds.map Prod.fst).filter
    (fun a => decide (lo ≤ a ∧ a ≤ hi))).mergeSort (fun a b => decide (a ≤ b))

/-- `findOptimalUpwindFromAngles` (polar.ts lines 230-273): candidates in
`[35, 75]`, VMG by the upwind projection, initial best `(45, -1, 0)`,
`null` when there is no candidate or no positive VMG was found. -/
def findOptimalUpwindFromAngles (cosDeg : ℚ → ℚ) (p : Polar) (tws : ℚ) :
    Option BestTriple :=
  let angleSet := candidateAngles p 35 75
  if angleSet = [] then none
  else
    let best := solveLoop p tws (calculateUpwindVMG cosDeg) ⟨45, -1, 0⟩ angleSet
    if 0 < best.vmg then some best else none

/-- `findOptimalDownwindFromAngles` (polar.ts lines 281-324): candidates
in `[135, 179]`, VMG by the downwind projection, initial best
`(160, -1, 0)`. -/
def findOptimalDownwindFromAngles (cosDeg : ℚ → ℚ) (p : Polar) (tws : ℚ) :
    Option BestTriple :=
  let angleSet := candidateAngles p 135 179
  if angleSet = [] then none
  else
    let best := solveLoop p tws (calculateDownwindVMG cosDeg) ⟨160, -1, 0⟩ angleSet
    if 0 < best.vmg then some best else none

/-- One reported direction of the optimal result. -/
structure OptimalTriple where
  twa : ℚ
  vmg : ℚ
  bs : ℚ
deriving DecidableEq, Repr

/-- The result record of `computeOptimal`. -/
structure OptimalOut where
  up : OptimalTriple
  dn : OptimalTriple
  reaching : List (ℚ × ReachingEntry)
  notes : List String
deriving DecidableEq, Repr

/-- Steps 1 and 2 of `computeOptimal` for the upwind direction
(polar.ts lines 344-345 and 350-357): interpolate the direct Beat
angle and VMG series, and when either half is missing fall back to the
estimated solver, flagging the note. -/
def upwindResolved (cosDeg : ℚ → ℚ) (polar : Polar) (tws : ℚ) :
    Option ℚ × Option ℚ × Bool :=
  let beatAngle0 := polar.beatAngles.bind fun l => interpAtTws l polar.wind tws
  let beatVmg0 := polar.beatVmg.bind fun l => interpAtTws l polar.wind tws
  if beatAngle0 = none ∨ beatVmg0 = none then
    match findOptimalUpwindFromAngles cosDeg polar tws with
    | some r => (some r.twa, some r.vmg, true)
    | none => (beatAngle0, beatVmg0, false)
  else (beatAngle0, beatVmg0, false)

/-- Steps 1 and 2 of `computeOptimal` for the downwind direction
(polar.ts lines 346-347 and 359-366). -/
def downwindResolved (cosDeg : ℚ → ℚ) (polar : Polar) (tws : ℚ) :
    Option ℚ × Option ℚ × Bool :=
  let gybeAngle0 := polar.gybeAngles.bind fun l => interpAtTws l polar.wind tws
  let runVmg0 := polar.runVmg.bind fun l => interpAtTws l polar.wind tws
  if gybeAngle0 = none ∨ runVmg0 = none then
    match findOptimalDownwindFromAngles cosDeg polar tws with
    | some r => (some r.twa, some r.vmg, true)
    | none => (gybeAngle0, runVmg0, false)
  else (gybeAngle0, runVmg0, false)

/-- `computeOptimal` (polar.ts lines 332-394): resolve each direction
(direct series, then estimated fallback); throw when any of the four
values is still missing; otherwise derive target boat speeds by the
inverse projection and attach the reaching table and the notes.
(JavaScript division by a zero cosine yields Infinity; the rational
model yields 0 -- no theorem below inspects a boat speed at a zero
cosine.) -/
def computeOptimal (cosDeg : ℚ → ℚ) (polar : Polar) (tws : ℚ) :
    Except String OptimalOut :=
  let up1 := upwindResolved cosDeg polar tws
  let dn1 := downwindResolved cosDeg polar tws
  match up1.1, up1.2.1, dn1.1, dn1.2.1 with
  | some beatAngle, some beatVmg, some gybeAngle, some runVmg =>
    let upBs := beatVmg / cosDeg beatAngle
    let dnBs := runVmg / cosDeg (180 - gybeAngle)
    Except.ok
      { up := ⟨round1 beatAngle, round2 beatVmg, round2 upBs⟩
        dn := ⟨round1 gybeAngle, round2 runVmg, round2 dnBs⟩
        reaching := computeReaching cosDeg polar tws
        notes :=
          (if up1.2.2 then ["Beat vinkel/VMG estimeret fra vinkelraekker"] else []) ++
          (if dn1.2.2 then ["Gybe vinkel/VMG estimeret fra vinkelraekker"] else []) }
  | _, _, _, _ =>
    Except.error "Mangler tilstraekkelige data til at beregne optimale vinkler/VMG"

/-- The upwind direction yields a usable angle/VMG pair: either both
direct series interpolate, or the estimated solver returns a triple.
This is exactly the condition under which `computeOptimal` ends with
both upwind values present. -/
def upwindUsable (cosDeg : ℚ → ℚ) (p : Polar) (tws : ℚ) : Bool :=
  ((p.beatAngles.bind fun l => interpAtTws l p.wind tws).isSome &&
   (p.beatVmg.bind fun l => interpAtTws l p.wind tws).isSome) ||
  (findOptimalUpwindFromAngles cosDeg p tws).isSome

/-- The downwind analogue of `upwindUsable`. -/
def downwindUsable (cosDeg : ℚ → ℚ) (p : Polar) (tws : ℚ) : Bool :=
  ((p.gybeAngles.bind fun l => interpAtTws l p.wind tws).isSome &&
   (p.runVmg.bind fun l => interpAtTws l p.wind tws).isSome) ||
  (findOptimalDownwindFromAngles cosDeg p tws).isSome

/-- One stored cache slot (`\x7b value, timestamp \x7d` in cache.ts). -/
structure LRUEntry (T : Type) where
  value : T
  timestamp : ℕ
deriving DecidableEq, Repr

/-- The state of the closure produced by `makeLRU` (cache.ts lines
228-291): capacity, TTL, and the backing `Map` as an association list in
insertion order, oldest first. -/
structure LRU (T : Type) where
  max : ℕ
  ttlMs : ℕ
  entries : List (String × LRUEntry T)
deriving DecidableEq, Repr

/-- `makeLRU(max, ttlMs)`: a fresh empty cache. -/
def makeLRU (T : Type) (max : ℕ := 100) (ttlMs : ℕ := 86400000) : LRU T :=
  { max := max, ttlMs := ttlMs, entries := [] }

/-- `map.delete(k)` on the association list. -/
def eraseKey {T : Type} (es : List (String × LRUEntry T)) (k : String) :
    List (String × LRUEntry T) :=
  es.filter fun p => decide (p.1 ≠ k)

/-- The `get` closure of `makeLRU`: absent or expired keys give
`undefined` (expired ones are deleted on access), otherwise the entry is
moved to the most-recently-used end and its value returned. -/
def LRU.get {T : Type} (c : LRU T) (k : String) (now : ℕ) :
    Option T × LRU T :=
  match lookupKey c.entries k with
  | none => (none, c)
  | some e =>
    if c.ttlMs < now - e.timestamp then
      (none, { c with entries := eraseKey c.entries k })
    else
      (some e.value, { c with entries := eraseKey c.entries k ++ [(k, e)] })

/-- The `has` closure of `makeLRU`: like `get` but without the
move-to-end, deleting an expired entry on access. -/
def LRU.has {T : Type} (c : LRU T) (k : String) (now : ℕ) : Bool × LRU T :=
  match lookupKey c.entries k with
  | none => (false, c)
  | some e =>
    if c.ttlMs < now - e.timestamp then
      (false, { c with entries := eraseKey c.entries k })
    else (true, c)

/-- The `set` closure of `makeLRU`: delete an existing entry for the
key, append as most-recently-used, and evict the oldest entry when the
capacity is exceeded. -/
def LRU.set {T : Type} (c : LRU T) (k : String) (v : T) (now : ℕ) : LRU T :=
  let es := eraseKey c.entries k ++ [(k, ⟨v, now⟩)]
  if c.max < es.length then { c with entries := es.drop 1 }
  else { c with entries := es }

/-- The `size` closure of `makeLRU`. -/
def LRU.size {T : Type} (c : LRU T) : ℕ := c.entries.length

/-- One externally observable cache operation (a `get` or a `set` at
some instant), for stating invariants over arbitrary sequences. -/
inductive CacheOp (T : Type) where
  | get (k : String) (now : ℕ)
  | set (k : String) (v : T) (now : ℕ)

/-- Run a sequence of cache operations left to right. -/
def runOps {T : Type} (c : LRU T) : List (CacheOp T) → LRU T
  | [] => c
  | CacheOp.get k now :: rest => runOps (c.get k now).2 rest
  | CacheOp.set k v now :: rest => runOps (c.set k v now) rest

/-- `OptimalRequest` (types.ts), with absent fields as `none`. -/
structure OptimalRequest where
  tws : ℚ
  refNo : Option String
  sailNo : Option String
  yachtName : Option String
  countryId : Option String
deriving DecidableEq, Repr

/-- JavaScript truthiness of an optional string field (`Boolean(req.f)`,
the source's double-negation idiom): present and non-empty. -/
def truthy : Option String → Bool
  | none => false
  | some s => decide (s ≠ "")

/-- `generateCacheKey` (cache.ts lines 297-311): reference number first,
then country-and-sail pair, then trimmed yacht name, all case-folded;
the empty string when no identity field matches. -/
def generateCacheKey (req : OptimalRequest) : String :=
  if truthy req.refNo then "ref:" ++ (req.refNo.getD "").toLower
  else if truthy req.countryId && truthy req.sailNo then
    "sail:" ++ (req.countryId.getD "").toLower ++ "|" ++ (req.sailNo.getD "").toLower
  else if truthy req.yachtName then
    "name:" ++ (req.yachtName.getD "").trim.toLower
  else ""

/-- `validateOptimalRequest` (index.ts lines 17-42): positive wind speed
in `[2, 50]`, at least one identity field, and `countryId` required when
`yachtName` stands alone. -/
def validateOptimalRequest (req : OptimalRequest) : Except String Unit :=
  if req.tws ≤ 0 then Except.error "tws skal vaere et positivt tal"
  else if req.tws < 2 ∨ 50 < req.tws then
    Except.error "tws skal vaere mellem 2 og 50 knob"
  else if ¬(truthy req.refNo ∨ truthy req.sailNo ∨ truthy req.yachtName) then
    Except.error "Mindst en identifier skal vaere givet"
  else if truthy req.yachtName ∧ ¬truthy req.countryId ∧ ¬truthy req.refNo
      ∧ ¬truthy req.sailNo then
    Except.error "countryId skal vaere givet naar yachtName bruges alene"
  else Except.ok ()

/-- `CacheEntry` (types.ts), with `fetchedAt` as the fetch instant. -/
structure CacheEntry where
  json : OrcJson
  polar : Polar
  fetchedAt : ℕ
deriving DecidableEq, Repr

/-- The `OrcCache` class state (cache.ts lines 327-374): the LRU plus
hit and miss counters. -/
structure OrcCache where
  cache : LRU CacheEntry
  hits : ℕ
  misses : ℕ
deriving DecidableEq, Repr

/-- The `OrcCache` constructor. -/
def OrcCache.new (maxSize : ℕ := 100) (ttlMs : ℕ := 86400000) : OrcCache :=
  { cache := makeLRU CacheEntry maxSize ttlMs, hits := 0, misses := 0 }

/-- `OrcCache.get` (cache.ts lines 336-344): counts a hit when the LRU
returns a value and a miss otherwise. -/
def OrcCache.get (c : OrcCache) (k : String) (now : ℕ) :
    Option CacheEntry × OrcCache :=
  let r := c.cache.get k now
  match r.1 with
  | some e => (some e, { c with cache := r.2, hits := c.hits + 1 })
  | none => (none, { c with cache := r.2, misses := c.misses + 1 })

/-- `OrcCache.has`: delegates to the LRU without touching the counters. -/
def OrcCache.has (c : OrcCache) (k : String) (now : ℕ) : Bool × OrcCache :=
  let r := c.cache.has k now
  (r.1, { c with cache := r.2 })

/-- `OrcCache.set`: delegates to the LRU. -/
def OrcCache.set (c : OrcCache) (k : String) (e : CacheEntry) (now : ℕ) :
    OrcCache :=
  { c with cache := c.cache.set k e now }

/-- `CacheStats` (cache.ts lines 316-322). -/
structure CacheStats where
  size : ℕ
  maxSize : ℕ
  hitRate : ℚ
  totalHits : ℕ
  totalMisses : ℕ
deriving DecidableEq, Repr

/-- `OrcCache.getStats` (cache.ts lines 364-373), `maxSize` hardcoded to
100 as in the source. -/
def OrcCache.getStats (c : OrcCache) : CacheStats :=
  let total := c.hits + c.misses
  { size := c.cache.size
    maxSize := 100
    hitRate := if 0 < total then (c.hits : ℚ) / total else 0
    totalHits := c.hits
    totalMisses := c.misses }

/-- What `getOrcData` hands back to `optimal`. -/
structure GetResult where
  json : OrcJson
  polar : Polar
  fetchedAt : ℕ
  endpoint : String
  cached : Bool
deriving DecidableEq, Repr

/-- `getOrcData` (index.ts lines 49-95): derive the cache key; when the
key is non-empty and `has` reports it, read through `get` and return the
cached entry; otherwise fetch (the already-resolved upstream payload is
the `upstream` argument, per the design the core is invoked with it),
parse it, store the entry under a non-empty key, and return it as
uncached.  The cache state is threaded out alongside the result so that
a parse failure still reports the mutations made before the throw. -/
def getOrcData (cache : OrcCache) (req : OptimalRequest) (upstream : OrcJson)
    (now : ℕ) : Except String GetResult × OrcCache :=
  let cacheKey := generateCacheKey req
  let step2 : OrcCache → Except String GetResult × OrcCache := fun c =>
    match parsePolarFromOrcJson upstream with
    | Except.error e => (Except.error e, c)
    | Except.ok polar =>
      let entry : CacheEntry := { json := upstream, polar := polar, fetchedAt := now }
      let c2 := if cacheKey ≠ "" then c.set cacheKey entry now else c
      (Except.ok { json := upstream, polar := polar, fetchedAt := now,
                   endpoint := "api", cached := false }, c2)
  if cacheKey = "" then step2 cache
  else
    let h := cache.has cacheKey now
    if h.1 then
      let g := h.2.get cacheKey now
      match g.1 with
      | some entry =>
        (Except.ok { json := entry.json, polar := entry.polar,
                     fetchedAt := entry.fetchedAt, endpoint := "cache",
                     cached := true }, g.2)
      | none => step2 g.2
    else step2 h.2

/-- A sequence of optimal requests threaded through the shared cache;
only `getOrcData` touches the cache, so this is the cache-relevant part
of `optimal` (index.ts lines 102-156). -/
def processRequests (cache : OrcCache) :
    List (OptimalRequest × OrcJson × ℕ) → OrcCache
  | [] => cache
  | t :: rest => processRequests (getOrcData cache t.1 t.2.1 t.2.2).2 rest

/-- One hundred and one distinct keys, for exercising the eviction
boundary of the capacity-100 cache. -/
def sampleKeys : List String := (List.range 101).map fun n => "k" ++ toString n

/-- Whether a computation succeeded (did not throw). -/
def isOkE {ε α : Type} : Except ε α → Bool
  | Except.ok _ => true
  | Except.error _ => false

/-- Decidable equality of computation outcomes, so concrete runs can be
checked by `decide`. -/
instance exceptDecEq {ε α : Type} [DecidableEq ε] [DecidableEq α] :
    DecidableEq (Except ε α) := fun x y =>
  match x, y with
  | Except.ok a, Except.ok b =>
    if h : a = b then Decidable.isTrue (by rw [h])
    else Decidable.isFalse (by simp [h])
  | Except.error a, Except.error b =>
    if h : a = b then Decidable.isTrue (by rw [h])
    else Decidable.isFalse (by simp [h])
  | Except.ok _, Except.error _ => Decidable.isFalse (by simp)
  | Except.error _, Except.ok _ => Decidable.isFalse (by simp)

end Orc

/-!  Theorems checking the specification claims against the embedding. -/

namespace Orc

/-- C3 (amended): parsing fails exactly when the payload has no `rms[0]`
element or that element has no `Allowances` section.  A payload with an
`Allowances` section but no usable series of any kind still parses (to a
model with the default wind-step axis and no series), and an absent
wind-step axis alone never fails. -/
theorem parse_fails_iff_no_allowances (j : OrcJson) :
    isOkE (parsePolarFromOrcJson j) =
      (j.rms.head?.bind RmsData.allowances).isSome := by
  cases hj : j.rms.head? with
  | none => simp [parsePolarFromOrcJson, hj, isOkE]
  | some rd =>
    cases ha : rd.allowances with
    | none => simp [parsePolarFromOrcJson, hj, ha, isOkE]
    | some al => simp [parsePolarFromOrcJson, hj, ha, isOkE]

/-- C3 counterexample: a payload containing an `Allowances` section but
no angle series, no time/speed series and no reaching channel parses
successfully into an empty model (with the default wind steps) instead
of failing with `MalformedPayload`. -/
theorem parse_empty_allowances_returns_model :
    parsePolarFromOrcJson
        ⟨[⟨some ⟨none, none, none, none, none, none, none, none, none,
                 none, none, none, none⟩⟩]⟩ =
      Except.ok ⟨STANDARD_WIND_SPEEDS, none, none, none, none, []⟩ := by
  rfl

/-- Inversion of the reaching-channel collection: every entry found in
the parsed angle-speed table comes from a non-empty channel of the
payload, converted with `toKnots`. -/
theorem lookupKey_filterMap_reachStep (L : List (ℚ × Option (List ℚ)))
    (a : ℚ) (sl : List ℚ)
    (h : lookupKey (L.filterMap reachStep) a = some sl) :
    ∃ ts, (a, some ts) ∈ L ∧ ts ≠ [] ∧ sl = toKnots ts := by
  induction L with
  | nil => simp [lookupKey] at h
  | cons c L ih =>
    obtain ⟨k, o⟩ := c
    cases o with
    | none =>
      rw [List.filterMap_cons] at h
      simp only [reachStep] at h
      obtain ⟨ts, h1, h2, h3⟩ := ih h
      exact ⟨ts, List.mem_cons_of_mem _ h1, h2, h3⟩
    | some ts =>
      rw [List.filterMap_cons] at h
      simp only [reachStep] at h
      by_cases hts : ts = []
      · rw [if_neg (by simp [hts])] at h
        obtain ⟨ts', h1, h2, h3⟩ := ih h
        exact ⟨ts', List.mem_cons_of_mem _ h1, h2, h3⟩
      · rw [if_pos (by simp [hts])] at h
        by_cases hk : k = a
        · subst hk
          rw [lookupKey, if_pos rfl] at h
          exact ⟨ts, by simp, hts, (Option.some.injEq _ _ ▸ h.symm)⟩
        · rw [lookupKey, if_neg hk] at h
          obtain ⟨ts', h1, h2, h3⟩ := ih h
          exact ⟨ts', List.mem_cons_of_mem _ h1, h2, h3⟩

/-- C2 (amended): the Polar Model Builder does not apply the mean-based
Unit Normalizer heuristic; it converts the `Beat`/`Run` time series and
every emitted reaching channel unconditionally with `toKnots`
(`3600 / s` rounded to two decimals, non-positive elements to 0),
regardless of the series mean.  The heuristic `normalizeVmgToKnots`
exists in the source but is not invoked by the builder. -/
theorem parse_applies_toKnots_unconditionally (j : OrcJson) (rd : RmsData)
    (al : Allowances) (P : Polar)
    (h1 : j.rms.head? = some rd) (h2 : rd.allowances = some al)
    (h3 : parsePolarFromOrcJson j = Except.ok P) :
    P.beatVmg = al.beat.map toKnots ∧
    P.runVmg = al.run.map toKnots ∧
    ∀ a sl, lookupKey P.angleSpeeds a = some sl →
      ∃ ts, (a, some ts) ∈ reachChannels al ∧ ts ≠ [] ∧ sl = toKnots ts := by
  have hP : P =
      { wind := match al.windSpeeds with
          | some l => l
          | none => STANDARD_WIND_SPEEDS
        beatAngles := al.beatAngle
        beatVmg := al.beat.map toKnots
        gybeAngles := al.gybeAngle
        runVmg := al.run.map toKnots
        angleSpeeds := (reachChannels al).filterMap reachStep } := by
    simp only [parsePolarFromOrcJson, h1, h2, Except.ok.injEq] at h3
    exact h3.symm
  refine ⟨by rw [hP], by rw [hP], ?_⟩
  intro a sl hsl
  rw [hP] at hsl
  exact lookupKey_filterMap_reachStep _ _ _ hsl

/-- C2 witness: a concrete payload whose `Beat` series is `[5, 6]`. -/
theorem parse_applies_toKnots_unconditionally_witness :
    (Polar.mk [10, 16] none (some [720, 600]) none none []).beatVmg =
      (Option.some [(5 : ℚ), 6]).map toKnots :=
  (parse_applies_toKnots_unconditionally
    ⟨[⟨some ⟨some [10, 16], none, some [5, 6], none, none, none, none,
             none, none, none, none, none, none⟩⟩]⟩
    ⟨some ⟨some [10, 16], none, some [5, 6], none, none, none, none,
           none, none, none, none, none, none⟩⟩
    ⟨some [10, 16], none, some [5, 6], none, none, none, none,
     none, none, none, none, none, none⟩
    (Polar.mk [10, 16] none (some [720, 600]) none none [])
    rfl rfl (by norm_num [parsePolarFromOrcJson, reachChannels, reachStep,
      toKnots, toKnotsElem, round2, round_eq])).1

/-- C2 counterexample: for a `Beat` series `[5, 6]` with mean `5.5 ≤
100`, the claim predicts the already-in-knots values `[5, 6]` (as the
heuristic `normalizeVmgToKnots` computes), but the builder returns
`toKnots [5, 6] = [720, 600]`. -/
theorem parse_beat_ignores_mean_heuristic :
    (parsePolarFromOrcJson
        ⟨[⟨some ⟨some [10, 16], none, some [5, 6], none, none, none, none,
                 none, none, none, none, none, none⟩⟩]⟩ =
      Except.ok (Polar.mk [10, 16] none (some [720, 600]) none none [])) ∧
    normalizeVmgToKnots [5, 6] = some [5, 6] ∧
    (Option.some [(720 : ℚ), 600] ≠ some [5, 6]) := by
  refine ⟨?_, ?_, by norm_num⟩
  · norm_num [parsePolarFromOrcJson, reachChannels, reachStep, toKnots,
      toKnotsElem, round2, round_eq]
  · rw [normalizeVmgToKnots, if_neg (by simp), if_neg (by norm_num [mean])]
    norm_num [round2, round_eq]

/-- C8 (amended): in a duration series (mean above 100) the Unit
Normalizer applies `toKnots`; every non-positive element maps to speed 0
(never a division error), every positive element maps to a nonnegative
speed, and that speed is strictly positive whenever the element is at
most 720000 (beyond which `3600 / s` rounds to 0 at two decimals). -/
theorem toKnots_nonneg_safety (l : List ℚ) (hne : l ≠ [])
    (hmean : 100 < mean l) :
    normalizeVmgToKnots l = some (toKnots l) ∧
    ∀ s ∈ l, (s ≤ 0 → toKnotsElem s = 0) ∧
      (0 < s → 0 ≤ toKnotsElem s) ∧
      (0 < s → s ≤ 720000 → 0 < toKnotsElem s) := by
  refine ⟨by rw [normalizeVmgToKnots, if_neg hne, if_pos hmean], ?_⟩
  intro s _
  refine ⟨fun hs => by rw [toKnotsElem, if_pos hs], fun hs => ?_, fun hs hs' => ?_⟩
  · rw [toKnotsElem, if_neg (not_le.mpr hs), round2]
    have h36 : (0 : ℚ) ≤ 3600 / s := le_of_lt (by positivity)
    have : (0 : ℤ) ≤ round (3600 / s * 100) := by
      rw [round_eq]
      exact Int.floor_nonneg.mpr (by linarith)
    positivity
  · rw [toKnotsElem, if_neg (not_le.mpr hs), round2]
    have hq : (1 : ℚ) / 2 ≤ 3600 / s * 100 := by
      rw [div_mul_eq_mul_div, le_div_iff₀ hs]
      linarith
    have : (1 : ℤ) ≤ round (3600 / s * 100) := by
      rw [round_eq]
      exact Int.le_floor.mpr (by push_cast; linarith)
    have hpos : (0 : ℚ) < (round (3600 / s * 100) : ℤ) := by exact_mod_cast this
    positivity

/-- C8 witness: the duration series `[500, 600]` (mean 550). -/
theorem toKnots_nonneg_safety_witness :
    normalizeVmgToKnots [500, 600] = some (toKnots [500, 600]) ∧
    (0 : ℚ) < toKnotsElem 500 :=
  ⟨(toKnots_nonneg_safety [500, 600] (by simp) (by norm_num [mean])).1,
   ((toKnots_nonneg_safety [500, 600] (by simp) (by norm_num [mean])).2 500
     (by norm_num)).2.2 (by norm_num) (by norm_num)⟩

/-- Generic inversion of an association list built by `filterMap` with a
key-preserving step: a successful lookup comes from some source element. -/
theorem lookupKey_filterMap_mem {κ β : Type} [DecidableEq κ]
    (f : κ → Option (κ × β)) (l : List κ) (a : κ) (e : β)
    (h : lookupKey (l.filterMap f) a = some e) :
    ∃ x, x ∈ l ∧ f x = some (a, e) := by
  induction l with
  | nil => simp [lookupKey] at h
  | cons x l ih =>
    rw [List.filterMap_cons] at h
    cases hfx : f x with
    | none =>
      rw [hfx] at h
      obtain ⟨y, hy, hfy⟩ := ih h
      exact ⟨y, List.mem_cons_of_mem _ hy, hfy⟩
    | some pr =>
      rw [hfx] at h
      by_cases hpa : pr.1 = a
      · rw [lookupKey, if_pos hpa] at h
        refine ⟨x, List.mem_cons_self _ _, ?_⟩
        rw [hfx, ← hpa]
        injection h with he
        rw [← he]
      · rw [lookupKey, if_neg hpa] at h
        obtain ⟨y, hy, hfy⟩ := ih h
        exact ⟨y, List.mem_cons_of_mem _ hy, hfy⟩

/-- An emitted reaching step carries its own angle as the key, a
matching-length series, a positive interpolated speed, and the entry
built with the upwind projection. -/
theorem reachingAt_some (cosDeg : ℚ → ℚ) (p : Polar) (tws : ℚ) (angle : ℚ)
    (pr : ℚ × ReachingEntry) (h : reachingAt cosDeg p tws angle = some pr) :
    pr.1 = angle ∧ ∃ sl bs, lookupKey p.angleSpeeds angle = some sl ∧
      sl.length = p.wind.length ∧ interpAtTws sl p.wind tws = some bs ∧
      0 < bs ∧
      pr.2 = ⟨angle, round2 bs, round2 (calculateUpwindVMG cosDeg angle bs)⟩ := by
  rw [reachingAt] at h
  cases hl : lookupKey p.angleSpeeds angle with
  | none => rw [hl] at h; exact absurd h (by simp)
  | some sl =>
    rw [hl] at h
    dsimp only at h
    by_cases hlen : sl.length ≠ p.wind.length
    · rw [if_pos hlen] at h; exact absurd h (by simp)
    · rw [if_neg hlen] at h
      cases hi : interpAtTws sl p.wind tws with
      | none => rw [hi] at h; exact absurd h (by simp)
      | some bs =>
        rw [hi] at h
        dsimp only at h
        by_cases hbs : bs ≤ 0
        · rw [if_pos hbs] at h; exact absurd h (by simp)
        · rw [if_neg hbs] at h
          injection h with hpr
          refine ⟨by rw [← hpr], sl, bs, rfl, not_not.mp hlen, hi,
            not_le.mp hbs, by rw [← hpr]⟩

/-- C6: every entry emitted into the reaching map -- for all angles of
the fixed set, including those above 90 degrees -- reports the angle
itself, the rounded interpolated speed, and a VMG computed with the
upwind projection formula `speed * cos(angle)`; since this holds for
every cosine function `cosDeg`, the downwind formula
`cos(180 - angle)` is never used for reaching entries. -/
theorem reaching_vmg_always_upwind (cosDeg : ℚ → ℚ) (p : Polar) (tws : ℚ)
    (a : ℚ) (e : ReachingEntry)
    (h : lookupKey (computeReaching cosDeg p tws) a = some e) :
    a ∈ REACH_ANGLES ∧ ∃ sl bs, lookupKey p.angleSpeeds a = some sl ∧
      interpAtTws sl p.wind tws = some bs ∧ 0 < bs ∧
      e.twa_deg = a ∧ e.target_bs_kt = round2 bs ∧
      e.vmg_kt = round2 (calculateUpwindVMG cosDeg a bs) := by
  obtain ⟨x, hx, hfx⟩ := lookupKey_filterMap_mem (reachingAt cosDeg p tws)
    REACH_ANGLES a e h
  obtain ⟨hkey, sl, bs, hl, hlen, hi, hbs, hpr⟩ :=
    reachingAt_some cosDeg p tws x (a, e) hfx
  dsimp only at hkey hpr
  subst hkey
  exact ⟨hx, sl, bs, hl, hi, hbs, by rw [hpr], by rw [hpr], by rw [hpr]⟩

/-- C6 witness: the reaching angle 110 (beyond 90 degrees) of a concrete
model, evaluated with a concrete stand-in cosine. -/
theorem reaching_vmg_always_upwind_witness :
    (110 : ℚ) ∈ REACH_ANGLES ∧ ∃ sl bs,
      lookupKey (Polar.mk [10, 16] none none none none [(110, [4, 5])]).angleSpeeds
        (110 : ℚ) = some sl ∧
      interpAtTws sl [10, 16] 13 = some bs ∧ 0 < bs ∧
      (ReachingEntry.mk 110 (9/2) (-1)).twa_deg = 110 ∧
      (ReachingEntry.mk 110 (9/2) (-1)).target_bs_kt = round2 bs ∧
      (ReachingEntry.mk 110 (9/2) (-1)).vmg_kt =
        round2 (calculateUpwindVMG (fun x => 1 - x/90) 110 bs) :=
  reaching_vmg_always_upwind (fun x => 1 - x/90)
    (Polar.mk [10, 16] none none none none [(110, [4, 5])]) 13 110
    (ReachingEntry.mk 110 (9/2) (-1))
    (by
      norm_num [computeReaching, reachingAt, REACH_ANGLES, lookupKey,
        List.filterMap_cons, interpAtTws, interpScan, lerp, List.getLastD,
        calculateUpwindVMG, round2, round_eq])

/-- A strictly increasing wind axis is strictly ordered at any two
indices. -/
theorem chain'_lt_getD {l : List ℚ} (h : l.Chain' (· < ·)) {i j : ℕ}
    (hij : i < j) (hj : j < l.length) : l.getD i 0 < l.getD j 0 := by
  rw [List.getD_eq_getElem l 0 (lt_trans hij hj), List.getD_eq_getElem l 0 hj]
  exact List.pairwise_iff_getElem.mp (List.chain'_iff_pairwise.mp h)
    i j (lt_trans hij hj) hj hij

/-- The weak version of `chain'_lt_getD`. -/
theorem chain'_le_getD {l : List ℚ} (h : l.Chain' (· < ·)) {i j : ℕ}
    (hij : i ≤ j) (hj : j < l.length) : l.getD i 0 ≤ l.getD j 0 := by
  rcases Nat.lt_or_ge i j with hlt | hge
  · exact le_of_lt (chain'_lt_getD h hlt hj)
  · rw [Nat.le_antisymm hij hge]

/-- The last default-read of a non-empty list is its entry at the last
index. -/
theorem getLastD_eq_getD_pred (l : List ℚ) (hne : l ≠ []) :
    l.getLastD 0 = l.getD (l.length - 1) 0 := by
  have hlt : l.length - 1 < l.length :=
    Nat.sub_lt (List.length_pos.mpr hne) Nat.one_pos
  rw [List.getLastD_eq_getLast?, List.getLast?_eq_getLast l hne,
    Option.getD_some, List.getLast_eq_getElem, List.getD_eq_getElem l 0 hlt]

/-- Unfolding of the scan on two cons cells. -/
theorem interpScan_cons_cons (v0 v1 : ℚ) (vs : List ℚ) (w0 w1 : ℚ)
    (ws : List ℚ) (tws : ℚ) :
    interpScan (v0 :: v1 :: vs) (w0 :: w1 :: ws) tws =
      if w0 ≤ tws ∧ tws ≤ w1 then
        some (lerp v0 v1 ((tws - w0) / (w1 - w0)))
      else interpScan (v1 :: vs) (w1 :: ws) tws := rfl

/-- Low boundary clamp of the interpolator. -/
theorem interpAtTws_low_clamp (v w : List ℚ) (tws : ℚ)
    (hlen : v.length = w.length) (hw : w ≠ []) (h : tws ≤ w.getD 0 0) :
    interpAtTws v w tws = some (v.getD 0 0) := by
  cases w with
  | nil => exact absurd rfl hw
  | cons w0 ws =>
    cases v with
    | nil => simp at hlen
    | cons v0 vs =>
      unfold interpAtTws
      rw [if_pos hlen]
      dsimp only
      rw [if_pos (by simpa using h)]
      simp

/-- High boundary clamp of the interpolator. -/
theorem interpAtTws_high_clamp (v w : List ℚ) (tws : ℚ)
    (hlen : v.length = w.length) (hw : w ≠ []) (hmono : w.Chain' (· < ·))
    (h : w.getLastD 0 ≤ tws) :
    interpAtTws v w tws = some (v.getLastD 0) := by
  cases w with
  | nil => exact absurd rfl hw
  | cons w0 ws =>
    cases v with
    | nil => simp at hlen
    | cons v0 vs =>
      unfold interpAtTws
      rw [if_pos hlen]
      dsimp only
      by_cases h0 : tws ≤ w0
      · cases ws with
        | nil =>
          rw [if_pos h0]
          cases vs with
          | nil => rfl
          | cons b t => simp at hlen
        | cons w1 ws1 =>
          exfalso
          have hlast : (w0 :: w1 :: ws1).getD 0 0 <
              (w0 :: w1 :: ws1).getD ((w0 :: w1 :: ws1).length - 1) 0 :=
            chain'_lt_getD hmono (by simp) (by simp)
          rw [← getLastD_eq_getD_pred _ (by simp)] at hlast
          simp only [List.getD_cons_zero] at hlast
          have := le_trans h h0
          linarith
      · rw [if_neg h0, if_pos (by rw [List.getLastD_cons] at h; exact h)]
        rw [List.getLastD_cons]

/-- The scan of `interpAtTws` on a half-open bracketing interval of a
strictly increasing axis returns the linear interpolation there. -/
theorem interpScan_half_open :
    ∀ (ws vs : List ℚ) (v0 v1 w0 w1 tws : ℚ),
      (v0 :: v1 :: vs).length = (w0 :: w1 :: ws).length →
      (w0 :: w1 :: ws).Chain' (· < ·) →
      ∀ i, i + 1 < (w0 :: w1 :: ws).length →
        (w0 :: w1 :: ws).getD i 0 ≤ tws →
        tws < (w0 :: w1 :: ws).getD (i + 1) 0 →
        interpScan (v0 :: v1 :: vs) (w0 :: w1 :: ws) tws =
          some (lerp ((v0 :: v1 :: vs).getD i 0)
            ((v0 :: v1 :: vs).getD (i + 1) 0)
            ((tws - (w0 :: w1 :: ws).getD i 0) /
              ((w0 :: w1 :: ws).getD (i + 1) 0 - (w0 :: w1 :: ws).getD i 0))) := by
  intro ws
  induction ws with
  | nil =>
    intro vs v0 v1 w0 w1 tws hlen hmono i hi hlow hhigh
    have hi0 : i = 0 := by simp at hi; omega
    subst hi0
    simp only [List.getD_cons_zero, List.getD_cons_succ] at hlow hhigh ⊢
    rw [interpScan_cons_cons, if_pos ⟨hlow, le_of_lt hhigh⟩]
  | cons w2 ws' ih =>
    intro vs v0 v1 w0 w1 tws hlen hmono i hi hlow hhigh
    cases vs with
    | nil => simp at hlen
    | cons v2 vs' =>
      cases i with
      | zero =>
        simp only [List.getD_cons_zero, List.getD_cons_succ] at hlow hhigh ⊢
        rw [interpScan_cons_cons, if_pos ⟨hlow, le_of_lt hhigh⟩]
      | succ j =>
        simp only [List.getD_cons_succ] at hlow hhigh ⊢
        have htail : (w1 :: w2 :: ws').Chain' (· < ·) := hmono.tail
        have hjlen : j + 1 < (w1 :: w2 :: ws').length := by
          simp at hi ⊢; omega
        by_cases hc : w0 ≤ tws ∧ tws ≤ w1
        · have hw1le : w1 ≤ (w1 :: w2 :: ws').getD j 0 := by
            cases j with
            | zero => simp
            | succ j' =>
              exact le_of_lt
                (chain'_lt_getD htail (Nat.succ_pos j') (by omega))
          have htws : tws = w1 := le_antisymm hc.2 (le_trans hw1le hlow)
          have hj : j = 0 := by
            by_contra hj0
            have hlt : w1 < (w1 :: w2 :: ws').getD j 0 :=
              chain'_lt_getD htail (Nat.pos_of_ne_zero hj0) (by omega)
            linarith [hlow, hc.2]
          subst hj
          subst htws
          rw [interpScan_cons_cons, if_pos ⟨hc.1, le_refl tws⟩]
          have hne0 : tws - w0 ≠ 0 :=
            sub_ne_zero.mpr (ne_of_gt (List.chain'_cons.mp hmono).1)
          simp only [List.getD_cons_zero, List.getD_cons_succ]
          rw [lerp, lerp, div_self hne0, sub_self, zero_div]
          ring_nf
        · rw [interpScan_cons_cons, if_neg hc]
          exact ih vs' v1 v2 w1 w2 tws (by simp at hlen ⊢; omega) htail j
            hjlen hlow hhigh

/-- When both boundary clamps fail, the interpolator is its scan. -/
theorem interpAtTws_eq_scan (v w : List ℚ) (tws : ℚ)
    (hlen : v.length = w.length) (hw : w ≠ [])
    (h0 : ¬ tws ≤ w.getD 0 0) (h1 : ¬ w.getLastD 0 ≤ tws) :
    interpAtTws v w tws = interpScan v w tws := by
  cases w with
  | nil => exact absurd rfl hw
  | cons w0 ws =>
    cases v with
    | nil => simp at hlen
    | cons v0 vs =>
      unfold interpAtTws
      rw [if_pos hlen]
      dsimp only
      rw [if_neg (by simpa using h0),
        if_neg (by rw [List.getLastD_cons] at h1; exact h1)]

/-- Querying exactly at a wind step returns that step value. -/
theorem interpAtTws_exact_step (v w : List ℚ) (tws : ℚ)
    (hlen : v.length = w.length) (hmono : w.Chain' (· < ·)) (i : ℕ)
    (hi : i < w.length) (heq : tws = w.getD i 0) :
    interpAtTws v w tws = some (v.getD i 0) := by
  have hw : w ≠ [] := by
    intro hnil
    rw [hnil] at hi
    simp at hi
  rcases Nat.eq_zero_or_pos i with hi0 | hipos
  · subst hi0
    exact interpAtTws_low_clamp v w tws hlen hw (le_of_eq heq)
  rcases Nat.lt_or_ge (i + 1) w.length with hmid | hlast
  · have h0 : ¬ tws ≤ w.getD 0 0 := by
      have := chain'_lt_getD hmono hipos (by omega)
      rw [← heq] at this
      linarith
    have hhigh : tws < w.getD (i + 1) 0 := by
      have := chain'_lt_getD hmono (Nat.lt_succ_self i) hmid
      rw [← heq] at this
      exact this
    have h1 : ¬ w.getLastD 0 ≤ tws := by
      rw [getLastD_eq_getD_pred w hw]
      have hle : w.getD (i + 1) 0 ≤ w.getD (w.length - 1) 0 :=
        chain'_le_getD hmono (by omega) (by omega)
      linarith
    rw [interpAtTws_eq_scan v w tws hlen hw h0 h1]
    cases w with
    | nil => exact absurd rfl hw
    | cons w0 ws =>
      cases ws with
      | nil => simp at hmid
      | cons w1 ws1 =>
        cases v with
        | nil => simp at hlen
        | cons v0 vs =>
          cases vs with
          | nil => simp at hlen
          | cons v1 vs1 =>
            rw [interpScan_half_open ws1 vs1 v0 v1 w0 w1 tws hlen hmono i
              hmid (le_of_eq heq.symm) hhigh]
            rw [heq, lerp, sub_self, zero_div, mul_zero, add_zero]
  · have hilen : i = w.length - 1 := by omega
    have hv : v ≠ [] := by
      intro hvnil
      rw [hvnil] at hlen
      exact hw (List.eq_nil_of_length_eq_zero hlen.symm)
    have hlast' : w.getLastD 0 ≤ tws := by
      rw [getLastD_eq_getD_pred w hw, ← hilen, ← heq]
    rw [interpAtTws_high_clamp v w tws hlen hw hmono hlast',
      getLastD_eq_getD_pred v hv, hlen, ← hilen]

/-- The interpolator on a closed bracketing interval of a strictly
increasing axis returns the linear interpolation there. -/
theorem interpAtTws_closed_bracket (v w : List ℚ) (tws : ℚ)
    (hlen : v.length = w.length) (hmono : w.Chain' (· < ·)) (i : ℕ)
    (hi : i + 1 < w.length) (hlow : w.getD i 0 ≤ tws)
    (hhigh : tws ≤ w.getD (i + 1) 0) :
    interpAtTws v w tws =
      some (v.getD i 0 + (v.getD (i + 1) 0 - v.getD i 0) *
        ((tws - w.getD i 0) / (w.getD (i + 1) 0 - w.getD i 0))) := by
  have hw : w ≠ [] := by
    intro hnil
    rw [hnil] at hi
    simp at hi
  have hne0 : w.getD (i + 1) 0 - w.getD i 0 ≠ 0 :=
    sub_ne_zero.mpr (ne_of_gt (chain'_lt_getD hmono (Nat.lt_succ_self i) hi))
  rcases eq_or_lt_of_le hhigh with heq | hlt
  · rw [interpAtTws_exact_step v w tws hlen hmono (i + 1) hi heq]
    rw [heq, div_self hne0]
    congr 1
    ring
  · by_cases h0 : tws ≤ w.getD 0 0
    · have hi0 : i = 0 := by
        by_contra hne
        have := chain'_lt_getD hmono (Nat.pos_of_ne_zero hne) (by omega)
        linarith
      subst hi0
      have htws : tws = w.getD 0 0 := le_antisymm h0 hlow
      rw [interpAtTws_low_clamp v w tws hlen hw h0, htws, sub_self,
        zero_div, mul_zero, add_zero]
    · have h1 : ¬ w.getLastD 0 ≤ tws := by
        rw [getLastD_eq_getD_pred w hw]
        have hle : w.getD (i + 1) 0 ≤ w.getD (w.length - 1) 0 :=
          chain'_le_getD hmono (by omega) (by omega)
        linarith
      rw [interpAtTws_eq_scan v w tws hlen hw h0 h1]
      cases w with
      | nil => exact absurd rfl hw
      | cons w0 ws =>
        cases ws with
        | nil => simp at hi
        | cons w1 ws1 =>
          cases v with
          | nil => simp at hlen
          | cons v0 vs =>
            cases vs with
            | nil => simp at hlen
            | cons v1 vs1 =>
              rw [interpScan_half_open ws1 vs1 v0 v1 w0 w1 tws hlen hmono i
                hi hlow hlt, lerp]

/-- C4: on equal-length series with a strictly increasing wind axis,
`interpAtTws` is the reference piecewise-linear interpolator: it clamps
flat at both boundaries, returns
`series[i] + (series[i+1] - series[i]) * t` with
`t = (tws - w[i]) / (w[i+1] - w[i])` on every closed bracketing
interval, and in particular returns the step value exactly when the
query equals an interior step. -/
theorem interpAtTws_piecewise_linear (v w : List ℚ) (tws : ℚ)
    (hlen : v.length = w.length) (hmono : w.Chain' (· < ·)) (hw : w ≠ []) :
    (tws ≤ w.getD 0 0 → interpAtTws v w tws = some (v.getD 0 0)) ∧
    (w.getLastD 0 ≤ tws → interpAtTws v w tws = some (v.getLastD 0)) ∧
    (∀ i, i + 1 < w.length → w.getD i 0 ≤ tws → tws ≤ w.getD (i + 1) 0 →
      interpAtTws v w tws =
        some (v.getD i 0 + (v.getD (i + 1) 0 - v.getD i 0) *
          ((tws - w.getD i 0) / (w.getD (i + 1) 0 - w.getD i 0)))) ∧
    (∀ i, i < w.length → tws = w.getD i 0 →
      interpAtTws v w tws = some (v.getD i 0)) :=
  ⟨interpAtTws_low_clamp v w tws hlen hw,
   interpAtTws_high_clamp v w tws hlen hw hmono,
   fun i hi hlow hhigh =>
     interpAtTws_closed_bracket v w tws hlen hmono i hi hlow hhigh,
   fun i hi heq => interpAtTws_exact_step v w tws hlen hmono i hi heq⟩

/-- C4 witness: the axis `[6, 8, 10]` with series `[1, 3, 5]`, checked
at a boundary query, an interior query, and an exact interior step. -/
theorem interpAtTws_piecewise_linear_witness :
    interpAtTws [1, 3, 5] [6, 8, 10] 5 = some 1 ∧
    interpAtTws [1, 3, 5] [6, 8, 10] 7 =
      some (1 + (3 - 1) * ((7 - 6) / (8 - 6))) ∧
    interpAtTws [1, 3, 5] [6, 8, 10] 8 = some 3 := by
  have h := interpAtTws_piecewise_linear [1, 3, 5] [6, 8, 10] 7
    (by simp) (by norm_num [List.chain'_cons]) (by simp)
  have h5 := interpAtTws_piecewise_linear [1, 3, 5] [6, 8, 10] 5
    (by simp) (by norm_num [List.chain'_cons]) (by simp)
  have h8 := interpAtTws_piecewise_linear [1, 3, 5] [6, 8, 10] 8
    (by simp) (by norm_num [List.chain'_cons]) (by simp)
  refine ⟨?_, ?_, ?_⟩
  · have := h5.1 (by norm_num)
    simpa using this
  · have := h.2.2.1 0 (by norm_num) (by norm_num) (by norm_num)
    simpa using this
  · have := h8.2.2.2 1 (by norm_num) (by norm_num)
    simpa using this

/-- A refinement step never decreases the running best VMG. -/
theorem refineStep_vmg_le (vmgOf : ℚ → ℚ → ℚ) (a na bs nbs : ℚ)
    (best : BestTriple) (t : ℚ) :
    best.vmg ≤ (refineStep vmgOf a na bs nbs best t).vmg := by
  simp only [refineStep]
  split
  next h => exact le_of_lt h
  next h => exact le_refl _

/-- Folding refinement steps never decreases the running best VMG. -/
theorem foldl_refineStep_vmg_le (vmgOf : ℚ → ℚ → ℚ) (a na bs nbs : ℚ) :
    ∀ (ts : List ℚ) (best : BestTriple),
      best.vmg ≤ (ts.foldl (refineStep vmgOf a na bs nbs) best).vmg := by
  intro ts
  induction ts with
  | nil => intro best; exact le_refl _
  | cons t ts ih =>
    intro best
    exact le_trans (refineStep_vmg_le vmgOf a na bs nbs best t) (ih _)

/-- The refinement block never decreases the running best VMG. -/
theorem refineAgainstNext_vmg_le (p : Polar) (tws : ℚ) (vmgOf : ℚ → ℚ → ℚ)
    (a bs : ℚ) (rest : List ℚ) (best1 : BestTriple) :
    best1.vmg ≤ (refineAgainstNext p tws vmgOf a bs rest best1).vmg := by
  rw [refineAgainstNext]
  cases rest.head? with
  | none => exact le_refl _
  | some na =>
    dsimp only
    cases candidateBs p tws na with
    | none => exact le_refl _
    | some nbs =>
      dsimp only
      by_cases hnp : nbs ≤ 0
      · rw [if_pos hnp]
      · rw [if_neg hnp]
        exact foldl_refineStep_vmg_le vmgOf a na bs nbs _ best1

/-- The solver loop never decreases the running best VMG. -/
theorem solveLoop_vmg_le (p : Polar) (tws : ℚ) (vmgOf : ℚ → ℚ → ℚ) :
    ∀ (l : List ℚ) (best : BestTriple),
      best.vmg ≤ (solveLoop p tws vmgOf best l).vmg := by
  intro l
  induction l with
  | nil => intro best; exact le_refl _
  | cons a rest ih =>
    intro best
    simp only [solveLoop]
    cases hbs : candidateBs p tws a with
    | none => exact ih best
    | some bs =>
      dsimp only
      by_cases hneg : bs ≤ 0
      · rw [if_pos hneg]; exact ih best
      · rw [if_neg hneg]
        refine le_trans ?_ (ih _)
        refine le_trans ?_ (refineAgainstNext_vmg_le p tws vmgOf a bs rest _)
        split
        next h => exact le_of_lt h
        next h => exact le_refl _

/-- The final best VMG of the solver loop dominates the VMG of every
processed candidate with a finite positive interpolated speed. -/
theorem solveLoop_vmg_covers (p : Polar) (tws : ℚ) (vmgOf : ℚ → ℚ → ℚ) :
    ∀ (l : List ℚ) (best : BestTriple) (a : ℚ), a ∈ l →
      ∀ bs, candidateBs p tws a = some bs → 0 < bs →
        vmgOf a bs ≤ (solveLoop p tws vmgOf best l).vmg := by
  intro l
  induction l with
  | nil => intro best a ha; exact absurd ha (List.not_mem_nil a)
  | cons x rest ih =>
    intro best a ha bs hbs hpos
    rcases List.mem_cons.mp ha with rfl | hmem
    · simp only [solveLoop]
      rw [hbs]
      dsimp only
      rw [if_neg (not_le.mpr hpos)]
      refine le_trans ?_ (solveLoop_vmg_le p tws vmgOf rest _)
      refine le_trans ?_ (refineAgainstNext_vmg_le p tws vmgOf a bs rest _)
      split
      next h => exact le_refl _
      next h => exact not_lt.mp h
    · simp only [solveLoop]
      cases hxbs : candidateBs p tws x with
      | none => exact ih best a hmem bs hbs hpos
      | some xbs =>
        dsimp only
        by_cases hxneg : xbs ≤ 0
        · rw [if_pos hxneg]; exact ih best a hmem bs hbs hpos
        · rw [if_neg hxneg]; exact ih _ a hmem bs hbs hpos

/-- The shared conclusion of the two estimated solvers: a returned
triple dominates every in-range raw candidate with a finite positive
interpolated speed. -/
theorem findFromAngles_maximal (p : Polar) (tws : ℚ) (vmgOf : ℚ → ℚ → ℚ)
    (lo hi : ℚ) (init : BestTriple) (r : BestTriple)
    (h : (let angleSet := candidateAngles p lo hi
          if angleSet = [] then none
          else
            let best := solveLoop p tws vmgOf init angleSet
            if 0 < best.vmg then some best else none) = some r) :
    ∀ a, a ∈ p.angleSpeeds.map Prod.fst → lo ≤ a → a ≤ hi →
      ∀ bs, candidateBs p tws a = some bs → 0 < bs → vmgOf a bs ≤ r.vmg := by
  intro a hmem hlo hhi bs hbs hpos
  by_cases hempty : candidateAngles p lo hi = []
  · rw [if_pos hempty] at h
    exact absurd h (by simp)
  · rw [if_neg hempty] at h
    dsimp only at h
    by_cases hv : 0 < (solveLoop p tws vmgOf init (candidateAngles p lo hi)).vmg
    · rw [if_pos hv] at h
      injection h with hr
      rw [← hr]
      refine solveLoop_vmg_covers p tws vmgOf (candidateAngles p lo hi) init a
        ?_ bs hbs hpos
      rw [candidateAngles, List.mem_mergeSort, List.mem_filter]
      exact ⟨hmem, decide_eq_true ⟨hlo, hhi⟩⟩
    · rw [if_neg hv] at h
      exact absurd h (by simp)

/-- C5: for each direction, when the estimated path returns a triple,
that triple's VMG is at least the VMG computed at every raw sampled
candidate angle of the direction's plausible range ([35, 75] upwind,
[135, 179] downwind) whose speed series interpolates to a finite
positive speed. -/
theorem estimated_triple_vmg_maximal (cosDeg : ℚ → ℚ) (p : Polar) (tws : ℚ) :
    (∀ r, findOptimalUpwindFromAngles cosDeg p tws = some r →
      ∀ a, a ∈ p.angleSpeeds.map Prod.fst → 35 ≤ a → a ≤ 75 →
        ∀ bs, candidateBs p tws a = some bs → 0 < bs →
          calculateUpwindVMG cosDeg a bs ≤ r.vmg) ∧
    (∀ r, findOptimalDownwindFromAngles cosDeg p tws = some r →
      ∀ a, a ∈ p.angleSpeeds.map Prod.fst → 135 ≤ a → a ≤ 179 →
        ∀ bs, candidateBs p tws a = some bs → 0 < bs →
          calculateDownwindVMG cosDeg a bs ≤ r.vmg) :=
  ⟨fun r hr => findFromAngles_maximal p tws (calculateUpwindVMG cosDeg)
      35 75 ⟨45, -1, 0⟩ r hr,
   fun r hr => findFromAngles_maximal p tws (calculateDownwindVMG cosDeg)
      135 179 ⟨160, -1, 0⟩ r hr⟩

/-- C5 witness: the concrete model with candidates at 40 and 50
degrees; the estimated triple refined at fraction 0.25 dominates the raw
candidate at 40 degrees. -/
theorem estimated_triple_vmg_maximal_witness :
    calculateUpwindVMG (fun x => 1 - x / 90) 40 (9 / 2) ≤
      (BestTriple.mk (85 / 2) (361 / 144) (19 / 4)).vmg := by
  have hca : candidateAngles
      (Polar.mk [10, 16] none none none none [(40, [4, 5]), (50, [5, 6])])
      35 75 = [40, 50] := by
    rw [candidateAngles]
    rw [show ((Polar.mk [10, 16] none none none none
        [(40, [4, 5]), (50, [5, 6])]).angleSpeeds.map Prod.fst).filter
        (fun a => decide (35 ≤ a ∧ a ≤ 75)) = [40, 50] by norm_num]
    exact List.mergeSort_eq_self (by norm_num [List.sorted_cons])
  have hfind : findOptimalUpwindFromAngles (fun x => 1 - x / 90)
      (Polar.mk [10, 16] none none none none [(40, [4, 5]), (50, [5, 6])])
      13 = some (BestTriple.mk (85 / 2) (361 / 144) (19 / 4)) := by
    rw [findOptimalUpwindFromAngles, hca]
    norm_num [solveLoop, refineAgainstNext, refineStep, candidateBs,
      lookupKey, interpAtTws, interpScan, lerp, List.getLastD,
      calculateUpwindVMG]
    simp
  exact (estimated_triple_vmg_maximal (fun x => 1 - x / 90)
      (Polar.mk [10, 16] none none none none [(40, [4, 5]), (50, [5, 6])]) 13).1
    (BestTriple.mk (85 / 2) (361 / 144) (19 / 4)) hfind
    40 (by norm_num) (by norm_num) (by norm_num)
    (9 / 2) (by norm_num [candidateBs, lookupKey, interpAtTws, interpScan,
      lerp, List.getLastD]) (by norm_num)

/-- Erasing a key never lengthens the store. -/
theorem eraseKey_length_le {T : Type} (es : List (String × LRUEntry T))
    (k : String) : (eraseKey es k).length ≤ es.length :=
  List.length_filter_le _ _

/-- Erasing a key that is present strictly shrinks the store. -/
theorem eraseKey_length_lt {T : Type} (es : List (String × LRUEntry T))
    (k : String) (e : LRUEntry T) (h : lookupKey es k = some e) :
    (eraseKey es k).length < es.length := by
  induction es with
  | nil => simp [lookupKey] at h
  | cons p ps ih =>
    by_cases hp : p.1 = k
    · have : eraseKey (p :: ps) k = eraseKey ps k := by
        simp [eraseKey, List.filter_cons, hp]
      rw [this]
      exact Nat.lt_succ_of_le (eraseKey_length_le ps k)
    · rw [lookupKey, if_neg hp] at h
      have : eraseKey (p :: ps) k = p :: eraseKey ps k := by
        simp [eraseKey, List.filter_cons, hp]
      rw [this]
      exact Nat.succ_lt_succ (ih h)

/-- `get` never lengthens the store. -/
theorem lru_get_length_le {T : Type} (c : LRU T) (k : String) (now : ℕ) :
    ((c.get k now).2).entries.length ≤ c.entries.length := by
  rw [LRU.get]
  cases hl : lookupKey c.entries k with
  | none => exact le_refl _
  | some e =>
    dsimp only
    by_cases hexp : c.ttlMs < now - e.timestamp
    · rw [if_pos hexp]
      exact eraseKey_length_le c.entries k
    · rw [if_neg hexp]
      have := eraseKey_length_lt c.entries k e hl
      simp only [List.length_append, List.length_cons, List.length_nil]
      omega

/-- `get` never changes the capacity. -/
theorem lru_get_max_eq {T : Type} (c : LRU T) (k : String) (now : ℕ) :
    ((c.get k now).2).max = c.max := by
  rw [LRU.get]
  cases lookupKey c.entries k with
  | none => rfl
  | some e =>
    dsimp only
    by_cases hexp : c.ttlMs < now - e.timestamp
    · rw [if_pos hexp]
    · rw [if_neg hexp]

/-- `set` keeps a within-capacity store within capacity. -/
theorem lru_set_length_le {T : Type} (c : LRU T) (k : String) (v : T)
    (now : ℕ) (h : c.entries.length ≤ c.max) :
    ((c.set k v now).entries).length ≤ c.max := by
  rw [LRU.set]
  have hes : (eraseKey c.entries k ++
      [(k, (⟨v, now⟩ : LRUEntry T))]).length ≤ c.max + 1 := by
    have := eraseKey_length_le c.entries k
    simp only [List.length_append, List.length_cons, List.length_nil]
    omega
  by_cases hover : c.max < (eraseKey c.entries k ++
      [(k, (⟨v, now⟩ : LRUEntry T))]).length
  · rw [if_pos hover]
    dsimp only
    simp only [List.length_drop]
    omega
  · rw [if_neg hover]
    exact not_lt.mp hover

/-- `set` never changes the capacity. -/
theorem lru_set_max_eq {T : Type} (c : LRU T) (k : String) (v : T)
    (now : ℕ) : (c.set k v now).max = c.max := by
  rw [LRU.set]
  by_cases hover : c.max <
      (eraseKey c.entries k ++ [(k, (⟨v, now⟩ : LRUEntry T))]).length
  · rw [if_pos hover]
  · rw [if_neg hover]

/-- Any sequence of `get`/`set` operations keeps a within-capacity
store within capacity. -/
theorem runOps_capacity {T : Type} :
    ∀ (ops : List (CacheOp T)) (c : LRU T), c.entries.length ≤ c.max →
      (runOps c ops).entries.length ≤ c.max := by
  intro ops
  induction ops with
  | nil => intro c h; exact h
  | cons op rest ih =>
    intro c h
    cases op with
    | get k now =>
      rw [runOps]
      have h1 : ((c.get k now).2).entries.length ≤ (c.get k now).2.max := by
        rw [lru_get_max_eq]
        exact le_trans (lru_get_length_le c k now) h
      have := ih ((c.get k now).2) h1
      rwa [lru_get_max_eq] at this
    | set k v now =>
      rw [runOps]
      have h1 : ((c.set k v now)).entries.length ≤ (c.set k v now).max := by
        rw [lru_set_max_eq]
        exact lru_set_length_le c k v now h
      have := ih (c.set k v now) h1
      rwa [lru_set_max_eq] at this

/-- Looking a key up in a constant-payload table misses exactly outside
the key list. -/
theorem lookupKey_map_not_mem {T : Type} (l : List String) (e : LRUEntry T)
    (k : String) (h : k ∉ l) :
    lookupKey (l.map fun x => (x, e)) k = none := by
  induction l with
  | nil => rfl
  | cons x xs ih =>
    simp only [List.mem_cons, not_or] at h
    rw [List.map_cons, lookupKey, if_neg (fun hc => h.1 (Eq.symm hc)),
      ih h.2]

/-- Looking a key up in a constant-payload table hits inside the list. -/
theorem lookupKey_map_mem {T : Type} (l : List String) (e : LRUEntry T)
    (k : String) (h : k ∈ l) :
    lookupKey (l.map fun x => (x, e)) k = some e := by
  induction l with
  | nil => exact absurd h (List.not_mem_nil k)
  | cons x xs ih =>
    by_cases hx : x = k
    · rw [List.map_cons, lookupKey, if_pos hx]
    · rw [List.map_cons, lookupKey, if_neg hx]
      refine ih ?_
      rcases List.mem_cons.mp h with h1 | h1
      · exact absurd h1.symm hx
      · exact h1

/-- `set` never changes the TTL. -/
theorem lru_set_ttl_eq {T : Type} (c : LRU T) (k : String) (v : T)
    (now : ℕ) : (c.set k v now).ttlMs = c.ttlMs := by
  rw [LRU.set]
  by_cases hover : c.max <
      (eraseKey c.entries k ++ [(k, (⟨v, now⟩ : LRUEntry T))]).length
  · rw [if_pos hover]
  · rw [if_neg hover]

/-- A fold of insertions never changes the capacity. -/
theorem foldl_set_max_eq {T : Type} (v : T) (t0 : ℕ) :
    ∀ (ks : List String) (c0 : LRU T),
      (ks.foldl (fun c k => c.set k v t0) c0).max = c0.max := by
  intro ks
  induction ks with
  | nil => intro c0; rfl
  | cons k ks ih =>
    intro c0
    rw [List.foldl_cons, ih, lru_set_max_eq]

/-- A fold of insertions never changes the TTL. -/
theorem foldl_set_ttl_eq {T : Type} (v : T) (t0 : ℕ) :
    ∀ (ks : List String) (c0 : LRU T),
      (ks.foldl (fun c k => c.set k v t0) c0).ttlMs = c0.ttlMs := by
  intro ks
  induction ks with
  | nil => intro c0; rfl
  | cons k ks ih =>
    intro c0
    rw [List.foldl_cons, ih, lru_set_ttl_eq]

/-- Inserting distinct fresh keys from an empty store keeps exactly the
last `m` of them, oldest first. -/
theorem foldl_set_fresh {T : Type} (v : T) (t0 m ttl : ℕ) :
    ∀ (ks : List String), ks.Nodup →
      (ks.foldl (fun c k => c.set k v t0) (makeLRU T m ttl)).entries =
        (ks.drop (ks.length - m)).map fun k => (k, ⟨v, t0⟩) := by
  intro ks
  induction ks using List.reverseRecOn with
  | nil => intro h; simp [makeLRU]
  | append_singleton ks k ih =>
    intro hnd
    have hnd1 : ks.Nodup := hnd.of_append_left
    have hk : k ∉ ks := by
      intro hmem
      have := List.disjoint_of_nodup_append hnd
      exact this hmem (List.mem_singleton_self k)
    rw [List.foldl_append, List.foldl_cons, List.foldl_nil, LRU.set, ih hnd1]
    have herase : eraseKey ((ks.drop (ks.length - m)).map
        fun x => (x, (⟨v, t0⟩ : LRUEntry T))) k =
        (ks.drop (ks.length - m)).map fun x => (x, ⟨v, t0⟩) := by
      rw [eraseKey, List.filter_eq_self]
      intro p hp
      obtain ⟨x, hx, hpx⟩ := List.mem_map.mp hp
      have hxk : x ≠ k := fun hxx =>
        hk (hxx ▸ List.mem_of_mem_drop hx)
      rw [← hpx]
      simpa using hxk
    rw [herase]
    have hlendrop : ((ks.drop (ks.length - m)).map
        (fun x => (x, (⟨v, t0⟩ : LRUEntry T)))).length =
        ks.length - (ks.length - m) := by
      rw [List.length_map, List.length_drop]
    have hmax : (ks.foldl (fun c k => c.set k v t0)
        (makeLRU T m ttl)).max = m := by
      rw [foldl_set_max_eq]
      rfl
    rw [hmax]
    by_cases hover : m <
        ((ks.drop (ks.length - m)).map (fun x => (x, (⟨v, t0⟩ : LRUEntry T)))
          ++ [(k, (⟨v, t0⟩ : LRUEntry T))]).length
    · rw [if_pos hover]
      dsimp only
      simp only [List.length_append, List.length_cons, List.length_nil] at hover
      rw [hlendrop] at hover
      by_cases hm0 : m = 0
      · subst hm0
        rw [Nat.sub_zero, List.drop_length]
        have hall : (ks ++ [k]).length - 0 = (ks ++ [k]).length :=
          Nat.sub_zero _
        rw [hall, List.drop_length]
        rfl
      · have hnm : m ≤ ks.length := by omega
        rw [List.drop_append_of_le_length (by rw [hlendrop]; omega)]
        have hdd : ((ks.drop (ks.length - m)).map
            (fun x => (x, (⟨v, t0⟩ : LRUEntry T)))).drop 1 =
            (ks.drop (ks.length - m + 1)).map
              fun x => (x, (⟨v, t0⟩ : LRUEntry T)) := by
          rw [← List.map_drop, List.drop_drop]
        rw [hdd]
        have harith : (ks ++ [k]).length - m = ks.length - m + 1 := by
          simp only [List.length_append, List.length_cons, List.length_nil]
          omega
        rw [harith, List.drop_append_of_le_length (by omega), List.map_append]
        rfl
    · rw [if_neg hover]
      dsimp only
      simp only [List.length_append, List.length_cons, List.length_nil] at hover
      rw [hlendrop] at hover
      have h0 : ks.length - m = 0 := by omega
      have harith : (ks ++ [k]).length - m = 0 := by
        simp only [List.length_append, List.length_cons, List.length_nil]
        omega
      rw [harith, List.drop_zero, List.map_append, h0, List.drop_zero]
      rfl

/-- C7: the cache never exceeds its capacity of 100 entries over any
sequence of `get`/`set` operations, and inserting 101 distinct keys
into an empty capacity-100 cache evicts exactly the first-inserted key:
a subsequent `get` on that key misses while every other inserted key
(queried before its TTL expires) hits. -/
theorem lru_capacity_and_eviction {T : Type} (v : T) (t0 tq : ℕ)
    (ks : List String) (hlen : ks.length = 101) (hnd : ks.Nodup)
    (hfresh : tq - t0 ≤ 86400000) :
    (∀ ops : List (CacheOp T),
      (runOps (makeLRU T 100 86400000) ops).entries.length ≤ 100) ∧
    ((ks.foldl (fun c k => c.set k v t0)
        (makeLRU T 100 86400000)).entries.length = 100 ∧
     ((ks.foldl (fun c k => c.set k v t0)
        (makeLRU T 100 86400000)).get (ks.headD "") tq).1 = none ∧
     ∀ k, k ∈ ks.drop 1 →
       ((ks.foldl (fun c k => c.set k v t0)
          (makeLRU T 100 86400000)).get k tq).1 = some v) := by
  have hentries := foldl_set_fresh v t0 100 86400000 ks hnd
  refine ⟨fun ops => runOps_capacity ops (makeLRU T 100 86400000)
    (by simp [makeLRU]), ?_, ?_, ?_⟩
  · rw [hentries, List.length_map, List.length_drop, hlen]
  · cases ks with
    | nil => simp at hlen
    | cons k1 rest =>
      have hk1 : k1 ∉ rest := (List.nodup_cons.mp hnd).1
      rw [LRU.get]
      have hlook : lookupKey ((k1 :: rest).foldl
          (fun c k => c.set k v t0) (makeLRU T 100 86400000)).entries
          ((k1 :: rest).headD "") = none := by
        rw [hentries]
        have hdrop : (k1 :: rest).drop ((k1 :: rest).length - 100) = rest := by
          simp at hlen
          simp [hlen]
        rw [hdrop]
        exact lookupKey_map_not_mem rest ⟨v, t0⟩ k1 hk1
      rw [hlook]
  · intro k hkmem
    have hdrop : ks.drop 1 = ks.drop (ks.length - 100) := by rw [hlen]
    have hlook : lookupKey (ks.foldl (fun c k => c.set k v t0)
        (makeLRU T 100 86400000)).entries k = some ⟨v, t0⟩ := by
      rw [hentries, ← hdrop]
      exact lookupKey_map_mem (ks.drop 1) ⟨v, t0⟩ k hkmem
    rw [LRU.get, hlook]
    dsimp only
    rw [if_neg (by
      rw [foldl_set_ttl_eq]
      simp only [makeLRU]
      omega)]

/-- C7 witness: 101 distinct concrete keys inserted at instant 0 and
queried at instant 5, within the 24-hour TTL. -/
theorem lru_capacity_and_eviction_witness :
    (sampleKeys.foldl (fun c k => c.set k (0 : ℕ) 0)
        (makeLRU ℕ 100 86400000)).entries.length = 100 ∧
    ((sampleKeys.foldl (fun c k => c.set k (0 : ℕ) 0)
        (makeLRU ℕ 100 86400000)).get (sampleKeys.headD "") 5).1 = none ∧
    ∀ k, k ∈ sampleKeys.drop 1 →
      ((sampleKeys.foldl (fun c k => c.set k (0 : ℕ) 0)
          (makeLRU ℕ 100 86400000)).get k 5).1 = some 0 :=
  (lru_capacity_and_eviction (0 : ℕ) 0 5 sampleKeys
    (by simp [sampleKeys]) (by decide) (by decide)).2

/-- The resolved upwind pair of `computeOptimal` is complete exactly
when the upwind direction is usable (direct pair or estimated triple). -/
theorem upwindResolved_complete (cosDeg : ℚ → ℚ) (p : Polar) (tws : ℚ) :
    ((upwindResolved cosDeg p tws).1.isSome &&
      (upwindResolved cosDeg p tws).2.1.isSome) = upwindUsable cosDeg p tws := by
  simp only [upwindResolved, upwindUsable]
  split
  next h =>
    cases hf : findOptimalUpwindFromAngles cosDeg p tws with
    | some r => simp [hf]
    | none => rcases h with h | h <;> simp [h, hf]
  next h =>
    push_neg at h
    simp [Option.isSome_iff_ne_none.mpr h.1, Option.isSome_iff_ne_none.mpr h.2]

/-- The downwind analogue of `upwindResolved_complete`. -/
theorem downwindResolved_complete (cosDeg : ℚ → ℚ) (p : Polar) (tws : ℚ) :
    ((downwindResolved cosDeg p tws).1.isSome &&
      (downwindResolved cosDeg p tws).2.1.isSome) = downwindUsable cosDeg p tws := by
  simp only [downwindResolved, downwindUsable]
  split
  next h =>
    cases hf : findOptimalDownwindFromAngles cosDeg p tws with
    | some r => simp [hf]
    | none => rcases h with h | h <;> simp [h, hf]
  next h =>
    push_neg at h
    simp [Option.isSome_iff_ne_none.mpr h.1, Option.isSome_iff_ne_none.mpr h.2]

/-- C1 (amended): `computeOptimal` returns a result exactly when BOTH
directions yield a usable angle/VMG pair after the direct and estimated
paths; equivalently, it raises the solver-exhaustion error as soon as at
least one direction terminates unavailable -- not only when both do. -/
theorem computeOptimal_ok_iff_both_usable (cosDeg : ℚ → ℚ) (p : Polar)
    (tws : ℚ) :
    isOkE (computeOptimal cosDeg p tws) =
      (upwindUsable cosDeg p tws && downwindUsable cosDeg p tws) := by
  rw [← upwindResolved_complete, ← downwindResolved_complete]
  simp only [computeOptimal]
  rcases hu : upwindResolved cosDeg p tws with ⟨a, b, nu⟩
  rcases hd : downwindResolved cosDeg p tws with ⟨g, r, nd⟩
  cases a <;> cases b <;> cases g <;> cases r <;> simp [isOkE]

/-- C1 counterexample: a model whose upwind direction yields a usable
direct angle/VMG pair while the downwind direction is unavailable; the
computation fails even though exactly one direction is usable,
contradicting the claim that it then returns a result. -/
theorem computeOptimal_fails_with_usable_upwind :
    isOkE (computeOptimal (fun _ => 1)
        ⟨[10], some [40], some [5], none, none, []⟩ 13) = false ∧
    upwindUsable (fun _ => 1)
        ⟨[10], some [40], some [5], none, none, []⟩ 13 = true ∧
    downwindUsable (fun _ => 1)
        ⟨[10], some [40], some [5], none, none, []⟩ 13 = false := by
  refine ⟨?_, ?_, ?_⟩ <;>
    norm_num [computeOptimal, upwindResolved, downwindResolved, upwindUsable,
      downwindUsable, isOkE, interpAtTws, interpScan, lerp, List.getLastD,
      findOptimalUpwindFromAngles, findOptimalDownwindFromAngles,
      candidateAngles, solveLoop, calculateUpwindVMG, calculateDownwindVMG]

/-- C9: a request whose only identity field is a non-empty `sailNo`
passes validation, derives the empty cache key, and therefore bypasses
the cache entirely: `getOrcData` leaves the cache untouched and any
successful result is a fresh upstream fetch (`cached = false`). -/
theorem sailNo_only_bypasses_cache (req : OptimalRequest)
    (href : req.refNo = none) (hyacht : req.yachtName = none)
    (hcountry : req.countryId = none) (hsail : truthy req.sailNo = true)
    (h1 : 0 < req.tws) (h2 : 2 ≤ req.tws) (h3 : req.tws ≤ 50) :
    validateOptimalRequest req = Except.ok () ∧
    generateCacheKey req = "" ∧
    ∀ cache upstream now,
      (getOrcData cache req upstream now).2 = cache ∧
      ∀ r, (getOrcData cache req upstream now).1 = Except.ok r →
        r.cached = false := by
  have hkey : generateCacheKey req = "" := by
    rw [generateCacheKey, if_neg (by simp [href, truthy]),
      if_neg (by simp [hcountry, truthy]), if_neg (by simp [hyacht, truthy])]
  refine ⟨?_, hkey, ?_⟩
  · rw [validateOptimalRequest, if_neg (not_le.mpr h1),
      if_neg (by push_neg; exact ⟨h2, h3⟩), if_neg (by simp [hsail]),
      if_neg (by simp [hyacht, truthy])]
  · intro cache upstream now
    cases hp : parsePolarFromOrcJson upstream with
    | error e =>
      refine ⟨by simp [getOrcData, hkey, hp], fun r hr => ?_⟩
      simp [getOrcData, hkey, hp] at hr
    | ok polar =>
      refine ⟨by simp [getOrcData, hkey, hp], fun r hr => ?_⟩
      simp [getOrcData, hkey, hp] at hr
      rw [← hr]

/-- C9 witness: the request with `tws = 10` and only `sailNo = "DEN123"`. -/
theorem sailNo_only_bypasses_cache_witness :
    validateOptimalRequest ⟨10, none, some "DEN123", none, none⟩ =
      Except.ok () ∧
    generateCacheKey ⟨10, none, some "DEN123", none, none⟩ = "" ∧
    ∀ cache upstream now,
      (getOrcData cache ⟨10, none, some "DEN123", none, none⟩
          upstream now).2 = cache ∧
      ∀ r, (getOrcData cache ⟨10, none, some "DEN123", none, none⟩
          upstream now).1 = Except.ok r → r.cached = false :=
  sailNo_only_bypasses_cache _ rfl rfl rfl (by simp [truthy])
    (by norm_num) (by norm_num) (by norm_num)

/-- A `has` that answers true leaves the LRU unchanged and guarantees
that an immediate `get` at the same instant returns a value. -/
theorem lru_has_true_get_some {T : Type} (c : LRU T) (k : String) (now : ℕ)
    (h : (c.has k now).1 = true) :
    (c.has k now).2 = c ∧ ∃ v, (c.get k now).1 = some v := by
  cases hl : lookupKey c.entries k with
  | none => simp only [LRU.has, hl] at h; exact absurd h (by simp)
  | some e =>
    by_cases hexp : c.ttlMs < now - e.timestamp
    · simp only [LRU.has, hl, if_pos hexp] at h; exact absurd h (by simp)
    · exact ⟨by simp only [LRU.has, hl, if_neg hexp],
        ⟨e.value, by simp only [LRU.get, hl, if_neg hexp]⟩⟩

/-- `has` and `set` never touch the miss counter. -/
theorem orcCache_has_misses (c : OrcCache) (k : String) (now : ℕ) :
    ((OrcCache.has c k now).2).misses = c.misses := rfl

/-- `set` never touches the miss counter. -/
theorem orcCache_set_misses (c : OrcCache) (k : String) (e : CacheEntry)
    (now : ℕ) : (OrcCache.set c k e now).misses = c.misses := rfl

/-- One pass of `getOrcData` never changes the miss counter: the cache
is only read through `get` after `has` answered true at the same
instant, and `set` and `has` do not count. -/
theorem getOrcData_preserves_misses (cache : OrcCache) (req : OptimalRequest)
    (upstream : OrcJson) (now : ℕ) :
    ((getOrcData cache req upstream now).2).misses = cache.misses := by
  simp only [getOrcData]
  by_cases hk : generateCacheKey req = ""
  · rw [if_pos hk]
    cases hp : parsePolarFromOrcJson upstream with
    | error e => rfl
    | ok polar =>
      dsimp only
      rw [if_neg (by simp [hk])]
  · rw [if_neg hk]
    by_cases hh : (OrcCache.has cache (generateCacheKey req) now).1 = true
    · rw [if_pos hh]
      have hlru : (cache.cache.has (generateCacheKey req) now).1 = true := hh
      obtain ⟨heq, v, hv⟩ :=
        lru_has_true_get_some cache.cache (generateCacheKey req) now hlru
      have hcache : (OrcCache.has cache (generateCacheKey req) now).2 = cache := by
        show ({ cache with
            cache := (cache.cache.has (generateCacheKey req) now).2 } : OrcCache)
          = cache
        rw [heq]
      rw [hcache]
      have hget1 : (OrcCache.get cache (generateCacheKey req) now).1 = some v := by
        simp only [OrcCache.get, hv]
      rw [hget1]
      simp only [OrcCache.get, hv]
    · rw [if_neg hh]
      cases hp : parsePolarFromOrcJson upstream with
      | error e => exact orcCache_has_misses cache (generateCacheKey req) now
      | ok polar =>
        dsimp only
        rw [if_pos hk, orcCache_set_misses, orcCache_has_misses]

/-- The miss counter is invariant over any sequence of optimal requests. -/
theorem processRequests_preserves_misses (reqs : List (OptimalRequest × OrcJson × ℕ))
    (c : OrcCache) : (processRequests c reqs).misses = c.misses := by
  induction reqs generalizing c with
  | nil => rfl
  | cons t rest ih =>
    simp only [processRequests]
    rw [ih, getOrcData_preserves_misses]

/-- C10: in the optimal request flow the cache is read through `get`
only after `has` has answered true for the same key at the same instant,
so a miss is never counted: after any sequence of optimal requests the
reported `totalMisses` is 0, and the reported `hitRate` is 1 when at
least one hit has occurred and 0 otherwise. -/
theorem optimal_flow_never_counts_misses
    (reqs : List (OptimalRequest × OrcJson × ℕ)) :
    ((processRequests (OrcCache.new 100 86400000) reqs).getStats).totalMisses
        = 0 ∧
    ((processRequests (OrcCache.new 100 86400000) reqs).getStats).hitRate =
      (if 0 < (processRequests (OrcCache.new 100 86400000) reqs).hits
        then 1 else 0) := by
  have hm : (processRequests (OrcCache.new 100 86400000) reqs).misses = 0 :=
    processRequests_preserves_misses reqs _
  refine ⟨by simp [OrcCache.getStats, hm], ?_⟩
  simp only [OrcCache.getStats, hm, Nat.add_zero]
  by_cases hh : 0 < (processRequests (OrcCache.new 100 86400000) reqs).hits
  · rw [if_pos hh, if_pos hh, div_self (by exact_mod_cast hh.ne.symm)]
  · rw [if_neg hh, if_neg hh]

/-- C8 counterexample: the one-element duration series `[1000000]` has
mean above 100 and a strictly positive element, yet the conversion
returns speed 0, because `3600 / 1000000` rounds to 0 at two decimals. -/
theorem toKnots_positive_element_maps_to_zero :
    normalizeVmgToKnots [1000000] = some [0] ∧
    (0 : ℚ) < 1000000 ∧ 100 < mean [1000000] ∧ ¬(0 : ℚ) < 0 := by
  refine ⟨?_, by norm_num, by norm_num [mean], by norm_num⟩
  norm_num [normalizeVmgToKnots, mean, toKnots, toKnotsElem, round2, round_eq]

end Orc
